import Mathlib

/-
Verification of the word-formation core (createFrequencyMap, canFormString,
findWords).  A JavaScript string is modelled as a `List Char` (the sequence of
its code points, which is what `for ... of` iterates).  A JavaScript plain
object used as a frequency map is modelled as an insertion-ordered association
list `List (Char × Nat)` with property lookup returning the first (and, for
objects, only) binding of a key.
-/

namespace WordFinder

/-- A frequency map: a JavaScript object mapping characters to counts,
modelled as an insertion-ordered association list. -/
abbrev FrequencyMap := List (Char × Nat)

/-- Property lookup `m[c]`: `some v` when the key is present, `none` when the
key is absent (JavaScript `undefined`). -/
def FrequencyMap.get (m : FrequencyMap) (c : Char) : Option Nat :=
  (m.find? (fun p => p.1 == c)).map Prod.snd

/-- One step of the loop body `frequencyMap[char] = (frequencyMap[char] ?? 0) + 1`:
update the existing binding in place (objects keep insertion order for existing
keys) or append a fresh binding with count 1 at the end. -/
def bump : FrequencyMap → Char → FrequencyMap
  | [], c => [(c, 1)]
  | (k, v) :: rest, c =>
      if k == c then (k, v + 1) :: rest else (k, v) :: bump rest c

/-- createFrequencyMap from the source: loop over the characters of the input
string, incrementing each character's count, initialising to 1 on first
occurrence. -/
def createFrequencyMap (inputString : List Char) : FrequencyMap :=
  inputString.foldl bump []

/-- canFormString from the source:
`Object.entries(map2).every(([char, frequency]) => map1[char] !== undefined && map1[char] >= frequency)`. -/
def canFormString (map1 map2 : FrequencyMap) : Bool :=
  map2.all fun p =>
    match FrequencyMap.get map1 p.1 with
    | some v => decide (p.2 ≤ v)
    | none => false

/-- findWords from the source: build the input string's frequency map once,
then reduce over the dictionary, pushing each word whose frequency map passes
`canFormString` against the input's map. -/
def findWords (inputString : List Char) (dictionary : List (List Char)) :
    List (List Char) :=
  let inputStringFrequencyMap := createFrequencyMap inputString
  dictionary.foldl
    (fun acc word =>
      if canFormString inputStringFrequencyMap (createFrequencyMap word) then
        acc ++ [word]
      else acc)
    []

/-- Combined effect on an optional count of adding k further occurrences. -/
def addCount (o : Option Nat) (k : Nat) : Option Nat :=
  match o with
  | some v => some (v + k)
  | none => if k = 0 then none else some k

theorem bump_get (m : FrequencyMap) (c' c : Char) :
    (bump m c').get c =
      if c = c' then some (((m.get c).getD 0) + 1) else m.get c := by
  induction m with
  | nil =>
      by_cases h : c = c'
      · subst h
        simp [bump, FrequencyMap.get, List.find?]
      · have h2 : (c' == c) = false :=
          beq_eq_false_iff_ne.mpr (fun hh => h hh.symm)
        simp [bump, FrequencyMap.get, List.find?, h, h2]
  | cons p rest ih =>
      obtain ⟨k, v⟩ := p
      by_cases hk : k = c'
      · subst hk
        by_cases hc : c = k
        · subst hc
          simp [bump, FrequencyMap.get, List.find?]
        · have h2 : (k == c) = false :=
            beq_eq_false_iff_ne.mpr (fun hh => hc hh.symm)
          simp [bump, FrequencyMap.get, List.find?, hc, h2]
      · have hkb : (k == c') = false := beq_eq_false_iff_ne.mpr hk
        by_cases hkc : k = c
        · subst hkc
          simp [bump, hkb, FrequencyMap.get, List.find?, hk]
        · have h2 : (k == c) = false := beq_eq_false_iff_ne.mpr hkc
          simp only [bump, hkb, Bool.false_eq_true, if_false,
            FrequencyMap.get, List.find?, h2] at ih ⊢
          exact ih

theorem foldl_bump_get (s : List Char) :
    ∀ (m : FrequencyMap) (c : Char),
      (s.foldl bump m).get c = addCount (m.get c) (s.count c) := by
  induction s with
  | nil =>
      intro m c
      cases h : m.get c <;> simp [addCount, h, List.count_nil]
  | cons a s ih =>
      intro m c
      rw [List.foldl_cons, ih]
      by_cases hca : c = a
      · subst hca
        rw [bump_get]
        simp only [if_pos rfl]
        have hcount : (c :: s).count c = s.count c + 1 := by
          simp [List.count_cons]
        rw [hcount]
        cases h : m.get c <;> simp [addCount, h] <;> omega
      · rw [bump_get, if_neg hca]
        have hcount : (a :: s).count c = s.count c := by
          simp [List.count_cons]
          intro h2
          exact absurd h2.symm hca
        rw [hcount]

theorem createFrequencyMap_get (s : List Char) (c : Char) :
    (createFrequencyMap s).get c =
      if s.count c = 0 then none else some (s.count c) := by
  rw [createFrequencyMap, foldl_bump_get]
  simp [FrequencyMap.get, addCount]

theorem canFormString_iff_mem (map1 map2 : FrequencyMap) :
    canFormString map1 map2 = true ↔
      ∀ p ∈ map2, ∃ v, map1.get p.1 = some v ∧ p.2 ≤ v := by
  rw [canFormString, List.all_eq_true]
  constructor
  · intro h p hp
    have hh := h p hp
    cases hg : map1.get p.1 with
    | none => rw [hg] at hh; simp at hh
    | some v =>
        rw [hg] at hh
        simp at hh
        exact ⟨v, rfl, hh⟩
  · intro h p hp
    obtain ⟨v, hg, hle⟩ := h p hp
    rw [hg]
    simpa using hle

theorem get_eq_some_of_mem (m : FrequencyMap) (c : Char) (n : Nat)
    (hnd : (m.map Prod.fst).Nodup) (hmem : (c, n) ∈ m) :
    m.get c = some n := by
  induction m with
  | nil => cases hmem
  | cons p rest ih =>
      obtain ⟨k, v⟩ := p
      simp only [List.map_cons, List.nodup_cons] at hnd
      rcases List.mem_cons.mp hmem with h | h
      · injection h with h1 h2
        subst h1
        subst h2
        simp [FrequencyMap.get, List.find?]
      · have hkc : ¬k = c := by
          intro hh
          subst hh
          exact hnd.1 (List.mem_map.mpr ⟨(k, n), h, rfl⟩)
        have h2 : (k == c) = false := beq_eq_false_iff_ne.mpr hkc
        simp only [FrequencyMap.get, List.find?, h2]
        exact ih hnd.2 h

theorem mem_of_get_eq_some (m : FrequencyMap) (c : Char) (n : Nat)
    (h : m.get c = some n) : (c, n) ∈ m := by
  rw [FrequencyMap.get, Option.map_eq_some'] at h
  obtain ⟨p, hfind, hsnd⟩ := h
  have hmem := List.mem_of_find?_eq_some hfind
  have hpred := List.find?_some hfind
  have h1 : p.1 = c := by simpa using hpred
  have : p = (c, n) := by
    obtain ⟨a, b⟩ := p
    simp at h1 hsnd
    rw [h1, hsnd]
  rw [this] at hmem
  exact hmem

theorem foldl_bump_ne_nil (s : List Char) :
    ∀ m : FrequencyMap, m ≠ [] → s.foldl bump m ≠ [] := by
  induction s with
  | nil => intro m hm; simpa using hm
  | cons a s ih =>
      intro m hm
      rw [List.foldl_cons]
      apply ih
      cases m with
      | nil => simp [bump]
      | cons p rest =>
          obtain ⟨k, v⟩ := p
          by_cases h : (k == a) = true <;> simp [bump, h]

theorem createFrequencyMap_eq_nil_iff (w : List Char) :
    createFrequencyMap w = [] ↔ w = [] := by
  constructor
  · intro h
    cases w with
    | nil => rfl
    | cons a rest =>
        exfalso
        apply foldl_bump_ne_nil rest (bump [] a) (by simp [bump])
        simpa [createFrequencyMap] using h
  · intro h
    subst h
    rfl

theorem findWords_eq_filter (s : List Char) (D : List (List Char)) :
    findWords s D =
      D.filter fun w =>
        canFormString (createFrequencyMap s) (createFrequencyMap w) := by
  rw [findWords]
  have key : ∀ (D : List (List Char)) (acc : List (List Char)),
      D.foldl
        (fun acc word =>
          if canFormString (createFrequencyMap s) (createFrequencyMap word) then
            acc ++ [word]
          else acc)
        acc =
      acc ++ D.filter fun w =>
        canFormString (createFrequencyMap s) (createFrequencyMap w) := by
    intro D
    induction D with
    | nil => intro acc; simp
    | cons w rest ih =>
        intro acc
        rw [List.foldl_cons]
        by_cases h :
            canFormString (createFrequencyMap s) (createFrequencyMap w) = true
        · rw [if_pos h, ih]
          simp [List.filter_cons, h]
        · rw [if_neg h, ih]
          simp only [Bool.not_eq_true] at h
          simp [List.filter_cons, h]
  simpa using key D []

theorem bump_sum (m : FrequencyMap) (c : Char) :
    ((bump m c).map Prod.snd).sum = ((m.map Prod.snd).sum) + 1 := by
  induction m with
  | nil => simp [bump]
  | cons p rest ih =>
      obtain ⟨k, v⟩ := p
      by_cases h : (k == c) = true
      · simp [bump, h]
        omega
      · simp only [Bool.not_eq_true] at h
        simp [bump, h, ih]
        omega

theorem foldl_bump_sum (s : List Char) :
    ∀ m : FrequencyMap,
      ((s.foldl bump m).map Prod.snd).sum =
        ((m.map Prod.snd).sum) + s.length := by
  induction s with
  | nil => intro m; simp
  | cons a s ih =>
      intro m
      rw [List.foldl_cons, ih, bump_sum]
      simp
      omega

theorem canFormString_nil_left (m : FrequencyMap) :
    canFormString [] m = true ↔ m = [] := by
  cases m with
  | nil => simp [canFormString]
  | cons p rest => simp [canFormString, FrequencyMap.get, List.find?]

/-- C1: findWords is the stable filter of the dictionary by the canFormString
test against the input string's frequency map; each word (duplicate
occurrences included) is kept at its original relative position exactly when
canFormString (createFrequencyMap s) (createFrequencyMap w) is true. -/
theorem claim1_findWords_is_stable_filter (s : List Char)
    (D : List (List Char)) :
    findWords s D =
      D.filter fun w =>
        canFormString (createFrequencyMap s) (createFrequencyMap w) :=
  findWords_eq_filter s D

/-- C2: canFormString source target is true iff every key present in target is
also present in source with a count at least the target count; in particular
it is true when target is empty (for any source), and false when source is
empty and target is non-empty. -/
theorem claim2_canFormString_subset_spec (source target : FrequencyMap)
    (hnd : (target.map Prod.fst).Nodup) :
    (canFormString source target = true ↔
      ∀ c n, target.get c = some n → ∃ v, source.get c = some v ∧ n ≤ v)
    ∧ canFormString source [] = true
    ∧ (source = [] → target ≠ [] → canFormString source target = false) := by
  refine ⟨?_, ?_, ?_⟩
  · rw [canFormString_iff_mem]
    constructor
    · intro h c n hget
      exact h (c, n) (mem_of_get_eq_some target c n hget)
    · intro h p hp
      exact h p.1 p.2 (get_eq_some_of_mem target p.1 p.2 hnd hp)
  · simp [canFormString]
  · intro hsrc htgt
    subst hsrc
    cases target with
    | nil => exact absurd rfl htgt
    | cons p rest => simp [canFormString, FrequencyMap.get, List.find?]

theorem claim2_witness : canFormString [('a', 2)] [] = true :=
  (claim2_canFormString_subset_spec [('a', 2)] [('a', 1)] (by simp)).2.1

/-- C3: the frequency map of s has a key for c exactly when c occurs in s, and
the value stored there is the exact occurrence count of c in s (hence every
present value is at least 1); the empty string gives the empty map. -/
theorem claim3_createFrequencyMap_counts (s : List Char) (c : Char) :
    ((createFrequencyMap s).get c =
      if s.count c = 0 then none else some (s.count c))
    ∧ createFrequencyMap ([] : List Char) = [] :=
  ⟨createFrequencyMap_get s c, rfl⟩

/-- C4 as stated fails on the code: the dictionary ["a", ""] is non-empty and
does not contain only the empty string, yet findWords with empty input returns
[""], not the empty result. -/
theorem claim4_counterexample :
    ([['a'], []] : List (List Char)) ≠ []
    ∧ ¬(∀ w ∈ ([['a'], []] : List (List Char)), w = [])
    ∧ findWords [] [['a'], []] = [[]]
    ∧ ([[]] : List (List Char)) ≠ [] := by decide

/-- C4 amended: with an empty input string, findWords returns exactly the
occurrences of the empty string in the dictionary, each at its original
position; the result is empty unless the dictionary contains the empty
string. -/
theorem claim4_findWords_empty_input (D : List (List Char)) :
    findWords [] D = D.filter fun w => decide (w = []) := by
  rw [findWords_eq_filter]
  apply List.filter_congr
  intro w _
  have hnil : createFrequencyMap ([] : List Char) = [] := rfl
  rw [hnil]
  by_cases h : w = []
  · subst h
    rfl
  · have h2 : createFrequencyMap w ≠ [] :=
      fun hh => h ((createFrequencyMap_eq_nil_iff w).mp hh)
    have h3 : canFormString [] (createFrequencyMap w) ≠ true :=
      fun hh => h2 ((canFormString_nil_left _).mp hh)
    simp only [h, decide_False]
    cases hb : canFormString [] (createFrequencyMap w) with
    | false => rfl
    | true => exact absurd hb h3

/-- C5: monotonicity — if W is formable from S, and every character count of
S' is at least that of S (S''s frequency map dominates S's), then W is
formable from S'. -/
theorem claim5_canFormString_monotone (S Sd W : List Char)
    (hdom : ∀ c, S.count c ≤ Sd.count c)
    (h : canFormString (createFrequencyMap S) (createFrequencyMap W) = true) :
    canFormString (createFrequencyMap Sd) (createFrequencyMap W) = true := by
  rw [canFormString_iff_mem] at h ⊢
  intro p hp
  obtain ⟨v, hget, hle⟩ := h p hp
  rw [createFrequencyMap_get] at hget
  by_cases hz : S.count p.1 = 0
  · rw [if_pos hz] at hget
    cases hget
  · rw [if_neg hz] at hget
    injection hget with hv
    have hd := hdom p.1
    have h1 : ¬Sd.count p.1 = 0 := by omega
    refine ⟨Sd.count p.1, ?_, ?_⟩
    · rw [createFrequencyMap_get, if_neg h1]
    · omega

theorem claim5_witness :
    canFormString (createFrequencyMap ['a', 'b'])
      (createFrequencyMap ['a']) = true :=
  claim5_canFormString_monotone ['a'] ['a', 'b'] ['a']
    (fun c => ((List.nil_sublist ['b']).cons₂ 'a').count_le c) (by decide)

/-- C6: character identity is exact code-point equality — the count stored for
c counts exactly the positions of s equal to c (no case folding), and
findWords "a" ["A"] is the empty sequence. -/
theorem claim6_exact_codepoint_identity :
    (∀ (s : List Char) (c : Char),
      ((createFrequencyMap s).get c).getD 0 =
        (s.filter fun x => decide (x = c)).length)
    ∧ findWords ['a'] [['A']] = [] := by
  constructor
  · intro s c
    rw [createFrequencyMap_get]
    have hc : s.count c = (s.filter fun x => decide (x = c)).length := by
      rw [List.count_eq_countP, List.countP_eq_length_filter]
      apply congrArg List.length
      apply List.filter_congr
      intro x _
      by_cases h : x = c <;> simp [h]
    by_cases hz : s.count c = 0
    · rw [if_pos hz]
      simp only [Option.getD_none]
      omega
    · rw [if_neg hz]
      simp only [Option.getD_some]
      omega
  · decide

/-- C7: concrete scenario — findWords "example" on the sample dictionary
returns exactly ["map", "pam", "lax", "plea"], in that order, with "exams"
excluded. -/
theorem claim7_example_scenario :
    findWords ("example".toList)
        (["map", "pam", "dog", "cat", "lax", "plea", "exams"].map
          String.toList) =
      ["map", "pam", "lax", "plea"].map String.toList := by decide

/-- C8: determinism — all three operations are pure functions of their
arguments: runs on identical inputs produce identical outputs, with no
dependence on outside state. -/
theorem claim8_determinism (s1 s2 : List Char) (D1 D2 : List (List Char))
    (m1 m2 n1 n2 : FrequencyMap) (hs : s1 = s2) (hD : D1 = D2)
    (hm : m1 = n1) (hn : m2 = n2) :
    findWords s1 D1 = findWords s2 D2
    ∧ createFrequencyMap s1 = createFrequencyMap s2
    ∧ canFormString m1 m2 = canFormString n1 n2 := by
  subst hs
  subst hD
  subst hm
  subst hn
  exact ⟨rfl, rfl, rfl⟩

theorem claim8_witness :
    findWords ['a'] [['a']] = findWords ['a'] [['a']]
    ∧ createFrequencyMap ['a'] = createFrequencyMap ['a']
    ∧ canFormString [('a', 1)] [] = canFormString [('a', 1)] [] :=
  claim8_determinism ['a'] ['a'] [['a']] [['a']] [('a', 1)] [] [('a', 1)] []
    rfl rfl rfl rfl

/-- C9: the counts stored in the frequency map of s sum to the number of code
points of s. -/
theorem claim9_sum_counts_eq_length (s : List Char) :
    ((createFrequencyMap s).map Prod.snd).sum = s.length := by
  rw [createFrequencyMap, foldl_bump_sum]
  simp

/-- C10: findWords distributes over dictionary concatenation: filtering D1 ++
D2 is filtering D1 followed by filtering D2. -/
theorem claim10_findWords_append (s : List Char) (D1 D2 : List (List Char)) :
    findWords s (D1 ++ D2) = findWords s D1 ++ findWords s D2 := by
  rw [findWords_eq_filter, findWords_eq_filter, findWords_eq_filter,
    List.filter_append]

end WordFinder
